import Mathlib

/- Verification of the retrieval-and-answer-synthesis engine of the
AI-PDFSearch repository: the lexical retriever, normalizer and answer
synthesizer of src/app.py, and the question handler of
src/prompt_ui.py.

Strings are modelled through their character lists. The Python
regular-expression and library calls the code makes are embedded as
executable Lean functions, faithful on the ASCII fragment the
repository manipulates (Python's str.lower, str.strip, \d, \w and
whitespace classes are Unicode-aware; the embedding uses their ASCII
restrictions). difflib.SequenceMatcher.ratio is embedded with exact
rational arithmetic, each score kept as a (numerator, denominator)
pair compared by cross multiplication, where CPython rounds the same
ratio to a double; the autojunk heuristic of SequenceMatcher is
inactive for every string shorter than 200 characters, which covers
all inputs evaluated here. -/

namespace PdfSearch

/-! ## Normalizer: remove_page_numbers (src/app.py, lines 37-39) -/

/-- Python word-character test on the ASCII fragment, `[A-Za-z0-9_]`,
as used by the word-boundary assertion `\b` in the regular expression
of `remove_page_numbers`. -/
def isWordChar (c : Char) : Bool := c.isAlpha || c.isDigit || c == '_'

/-- The trailing word-boundary test of `\b\d{1,4}\b`: the character
following the digit run, when there is one, must not be a word
character. -/
def boundaryOk : List Char → Bool
  | [] => true
  | d :: _ => !isWordChar d

/-- `re.sub(r'\b\d{1,4}\b', '', text)` over the character list: every
maximal run of one to four digits with a word boundary on both ends is
erased; everything else is kept. The flag records whether the previous
character of the original text was a word character (false at the
start of the text). A match inside a maximal digit run is impossible
(no boundary there), and a run that fails the match is emitted one
character at a time with the flag set. -/
def rpnAux (prevW : Bool) (l : List Char) : List Char :=
  match l with
  | [] => []
  | c :: cs =>
    if !prevW && c.isDigit then
      let run := c :: List.takeWhile Char.isDigit cs
      let rest := List.dropWhile Char.isDigit cs
      if decide (run.length ≤ 4) && boundaryOk rest then
        rpnAux true rest
      else
        c :: rpnAux true cs
    else
      c :: rpnAux (isWordChar c) cs
termination_by l.length
decreasing_by
  · simp only [List.length_cons]
    exact Nat.lt_succ_of_le (List.dropWhile_sublist _).length_le
  · simp only [List.length_cons]; omega
  · simp only [List.length_cons]; omega

/-- `remove_page_numbers(text)` from src/app.py: erase isolated one-
to four-digit numbers (likely page numbers) from the text. -/
def remove_page_numbers (text : String) : String := ⟨rpnAux false text.data⟩

/-- Python `text.split("\n")` on character lists: the empty text
yields one (empty) line; separators are consumed; empty lines are
kept. -/
def splitOnNl : List Char → List (List Char)
  | [] => [[]]
  | c :: cs =>
    if c = '\n' then [] :: splitOnNl cs
    else
      match splitOnNl cs with
      | [] => [[c]]
      | r :: rs => (c :: r) :: rs

/-! ## difflib.SequenceMatcher.ratio (used by similarity, src/app.py
lines 41-42) -/

/-- Length of the longest common prefix of two character lists. -/
def commonPrefixLen : List Char → List Char → Nat
  | a :: as2, b :: bs => if a = b then commonPrefixLen as2 bs + 1 else 0
  | _, _ => 0

/-- Size of the matching block anchored at `(i, j)` inside the ranges
`[0, ahi) × [0, bhi)`: the longest common prefix of the two truncated
suffixes. These are the diagonal run lengths that
`difflib.SequenceMatcher.find_longest_match` accumulates. -/
def sizeAt (a b : List Char) (ahi bhi i j : Nat) : Nat :=
  commonPrefixLen ((a.take ahi).drop i) ((b.take bhi).drop j)

/-- `difflib.SequenceMatcher.find_longest_match` on the ranges
`[alo, ahi) × [blo, bhi)` in the junk-free case (`isjunk = None`,
autojunk inactive): the longest matching block `(i, j, size)`, ties
resolved toward the smallest `i`, then the smallest `j`, which is the
scanning order of the CPython implementation. -/
def findLongestMatch (a b : List Char) (alo ahi blo bhi : Nat) : Nat × Nat × Nat :=
  (List.range' alo (ahi - alo)).foldl
    (fun best i =>
      (List.range' blo (bhi - blo)).foldl
        (fun best2 j =>
          let k := sizeAt a b ahi bhi i j
          if best2.2.2 < k then (i, j, k) else best2)
        best)
    (alo, blo, 0)

/-- Total number of matched characters in the recursive block
decomposition of `difflib.SequenceMatcher.get_matching_blocks`: take
the longest matching block of the range, then recurse to its left and
to its right. `ahi - alo` strictly decreases at every recursive call,
so a fuel of `ahi - alo + 1` makes the function total without changing
its value. -/
def matchSum (a b : List Char) : Nat → Nat → Nat → Nat → Nat → Nat
  | 0, _, _, _, _ => 0
  | fuel + 1, alo, ahi, blo, bhi =>
    match findLongestMatch a b alo ahi blo bhi with
    | (i, j, k) =>
      if k = 0 then 0
      else matchSum a b fuel alo i blo j + k + matchSum a b fuel (i + k) ahi (j + k) bhi

/-- `difflib.SequenceMatcher(None, a, b).ratio()` as an exact
rational kept as a (numerator, denominator) pair:
`(2 * M, |a| + |b|)` with `M` the total matched characters, and ratio
`1` when both sequences are empty, exactly as
`difflib._calculate_ratio` computes before rounding to a double. -/
def ratioPair (a b : List Char) : Nat × Nat :=
  let la := a.length
  let lb := b.length
  if la + lb = 0 then (1, 1)
  else (2 * matchSum a b (la + 1) 0 la 0 lb, la + lb)

/-- `similarity(a, b)` from src/app.py: the SequenceMatcher ratio of
the two lowercased strings (case-insensitive score). -/
def similarity (a b : String) : Nat × Nat :=
  ratioPair (a.data.map Char.toLower) (b.data.map Char.toLower)

/-- Strict order on ratio pairs by cross multiplication: the order of
the exact ratios. -/
def scoreLt (a b : Nat × Nat) : Prop := a.1 * b.2 < b.1 * a.2

instance (a b : Nat × Nat) : Decidable (scoreLt a b) := by
  unfold scoreLt; infer_instance

/-- Equality of two ratio pairs as exact rationals, by cross
multiplication. -/
def scoreEq (a b : Nat × Nat) : Prop := a.1 * b.2 = b.1 * a.2

instance (a b : Nat × Nat) : Decidable (scoreEq a b) := by
  unfold scoreEq; infer_instance

/-- The ranking order of the retriever's candidate list: strictly
greater score first; equal scores ordered by ascending original line
index, which is the tie-break a stable descending sort realises on the
enumerated lines. -/
def rankRel (a b : (Nat × Nat) × Nat) : Prop :=
  scoreLt b.1 a.1 ∨ (scoreEq a.1 b.1 ∧ a.2 < b.2)

instance (a b : (Nat × Nat) × Nat) : Decidable (rankRel a b) := by
  unfold rankRel; infer_instance

/-! ## Lexical retriever: find_relevant_chunks (src/app.py, lines
44-60) -/

/-- The scoring loop of `find_relevant_chunks`:
`for i, line in enumerate(lines): chunks.append((score, i))`, where
`k` is the index of the first line of the remaining list. -/
def scoredFrom (question : String) (k : Nat) : List String → List ((Nat × Nat) × Nat)
  | [] => []
  | l :: ls => (similarity question l, k) :: scoredFrom question (k + 1) ls

/-- Stable insertion of one scored line into a list already sorted by
descending score: the element goes after every strictly greater score
and before every equal one, which is where Python's stable sort leaves
an element coming later in the input. -/
def insertScored (a : (Nat × Nat) × Nat) :
    List ((Nat × Nat) × Nat) → List ((Nat × Nat) × Nat)
  | [] => [a]
  | y :: ys => if scoreLt a.1 y.1 then y :: insertScored a ys else a :: y :: ys

/-- `sorted(chunks, key=lambda x: x[0], reverse=True)` from
src/app.py, embedded as a stable insertion sort: Python's `sorted` is
specified to be stable and descending under `reverse=True`, and a
stable sort is determined by the order alone, independently of the
algorithm. -/
def sortScoredDesc : List ((Nat × Nat) × Nat) → List ((Nat × Nat) × Nat)
  | [] => []
  | a :: rest => insertScored a (sortScoredDesc rest)

/-- The selection loop of `find_relevant_chunks`: walk the ranked
candidates; skip one whose start index was already consumed, otherwise
emit the window `lines[idx:idx+w]` and consume the index range
`range(idx, idx+w)` of the whole window. Each emitted entry keeps its
`(score, index)` pair next to the window text. -/
def selectAux (lines : List String) (w : Nat) :
    List ((Nat × Nat) × Nat) → List Nat → List (((Nat × Nat) × Nat) × String)
  | [], _ => []
  | si :: rest, used =>
    if si.2 ∈ used then selectAux lines w rest used
    else
      (si, String.intercalate "\n" ((lines.drop si.2).take w)) ::
        selectAux lines w rest (used ++ List.range' si.2 w)

/-- The lines of the session text, as Python's `text.split("\n")`
produces them. -/
def textLines (text : String) : List String :=
  (splitOnNl text.data).map fun l => (⟨l⟩ : String)

/-- All lines scored against the question and ranked by descending
similarity (stable, so equal scores keep ascending index order). -/
def rankedChunks (question text : String) : List ((Nat × Nat) × Nat) :=
  sortScoredDesc (scoredFrom question 0 (textLines text))

/-- The windows `find_relevant_chunks` emits, with score, start index
and window text, in emission order. -/
def selectedPairs (question text : String) (max_chunks max_lines : Nat) :
    List (((Nat × Nat) × Nat) × String) :=
  selectAux (textLines text) max_lines ((rankedChunks question text).take max_chunks) []

/-- Start indices of the emitted windows, in emission order. -/
def selectedStarts (question text : String) (max_chunks max_lines : Nat) : List Nat :=
  (selectedPairs question text max_chunks max_lines).map fun p => p.1.2

/-- `find_relevant_chunks(question, text, max_chunks, max_lines)`
from src/app.py: the emitted windows joined by blank lines. -/
def find_relevant_chunks (question text : String) (max_chunks max_lines : Nat) : String :=
  String.intercalate "\n\n" ((selectedPairs question text max_chunks max_lines).map fun p => p.2)

/-! ## Answer synthesizer: generate_gpt_style_answer (src/app.py,
lines 62-95) -/

/-- Python `str.strip()` on the ASCII fragment: drop whitespace from
both ends. -/
def pyStrip (l : List Char) : List Char :=
  ((l.dropWhile Char.isWhitespace).reverse.dropWhile Char.isWhitespace).reverse

/-- Python `str.lower()` on the ASCII fragment. -/
def pyLower (l : List Char) : List Char := l.map Char.toLower

/-- Python `needle in hay` on strings: substring containment. -/
def containsSub (hay needle : List Char) : Bool :=
  hay.tails.any fun t => List.isPrefixOf needle t

/-- Python `str.split()` with no separator: split on whitespace runs,
dropping empty parts. The fuel dominates the length of the list. -/
def splitWsFuel : Nat → List Char → List (List Char)
  | 0, _ => []
  | _ + 1, [] => []
  | fuel + 1, c :: cs =>
    if Char.isWhitespace c then splitWsFuel fuel cs
    else
      (c :: cs.takeWhile fun d => !Char.isWhitespace d) ::
        splitWsFuel fuel (cs.dropWhile fun d => !Char.isWhitespace d)

/-- Python `question.split()`. -/
def pySplitWs (l : List Char) : List (List Char) := splitWsFuel (l.length + 1) l

/-- `re.split(r'(?<=[.!?]) +', context)`: cut the text at every
maximal run of spaces directly preceded by a sentence-ending
punctuation character; the separator is consumed. `prev` carries the
previous character of the original text for the lookbehind, `acc`
holds the current part reversed, and the fuel dominates the length of
the remaining text. -/
def splitSentFuel : Nat → Option Char → List Char → List Char → List (List Char)
  | 0, _, acc, _ => [acc.reverse]
  | _ + 1, _, acc, [] => [acc.reverse]
  | fuel + 1, prev, acc, c :: cs =>
    if c == ' ' && (prev == some '.' || prev == some '!' || prev == some '?') then
      acc.reverse :: splitSentFuel fuel (some ' ') [] (cs.dropWhile fun d => d == ' ')
    else
      splitSentFuel fuel (some c) (c :: acc) cs

/-- The sentence split of `generate_gpt_style_answer`. -/
def splitSentences (l : List Char) : List (List Char) :=
  splitSentFuel (l.length + 1) none [] l

/-- The fixed fallback point list of `generate_gpt_style_answer`
(src/app.py, lines 80-87). -/
def fallback_points : List String :=
  ["Splitting data into training and test sets ensures the model is evaluated on unseen data, preventing overfitting.",
   "Performance metrics like accuracy, precision, recall, F1-score, and R² help measure how well the model performs for different tasks.",
   "Cross-validation evaluates the model across multiple data splits to get a more reliable estimate of performance.",
   "Hyperparameter tuning using techniques like Grid Search or Random Search helps optimize model performance by finding the best parameter settings.",
   "Feature selection and engineering can improve model accuracy by identifying the most influential variables and reducing noise.",
   "Iterative model improvement involves trying different algorithms, adjusting parameters, and analyzing errors to enhance overall prediction quality."]

/-- The relevant-sentence extraction of `generate_gpt_style_answer`:
page numbers are removed from the context; when the stripped context
is non-empty it is split into sentences; the keywords are the words of
the question longer than three characters, lowercased; a sentence is
kept when it contains some keyword case-insensitively and its stripped
form is longer than ten characters; kept sentences are returned
stripped, in their order of appearance. -/
def relevantSentences (question context : String) : List String :=
  let ctx := remove_page_numbers context
  let sentences := if pyStrip ctx.data ≠ [] then splitSentences ctx.data else []
  let keywords := ((pySplitWs question.data).filter fun w => 3 < w.length).map pyLower
  (sentences.filter fun s =>
      (keywords.any fun kw => containsSub (pyLower s) kw) && decide (10 < (pyStrip s).length)).map
    fun s => (⟨pyStrip s⟩ : String)

/-- `points = relevant_sentences[:6] if relevant_sentences else
fallback_points[:6]` from src/app.py, line 89. -/
def answerPoints (question context : String) : List String :=
  let r := relevantSentences question context
  if r ≠ [] then r.take 6 else fallback_points.take 6

/-- One formatted point: `f"**Point {i}:** {p}\n\n"`. -/
def pointChars (i : Nat) (p : String) : List Char :=
  "**Point ".data ++ (Nat.repr i).data ++ ":** ".data ++ p.data ++ "\n\n".data

/-- The formatting loop `for i, p in enumerate(points, 1)`. -/
def formatAnswerChars (i : Nat) : List String → List Char
  | [] => []
  | p :: ps => pointChars i p ++ formatAnswerChars (i + 1) ps

/-- `generate_gpt_style_answer(question, context)` from src/app.py:
the formatted points, stripped. -/
def generate_gpt_style_answer (question context : String) : String :=
  ⟨pyStrip (formatAnswerChars 1 (answerPoints question context))⟩

/-- The Send handler of the chat interface in src/app.py (lines
127-131): for a non-empty question, retrieve context from the
session's document text — empty text short-circuits to empty context
without calling the retriever — synthesize the answer and append the
(question, answer) pair to the chat history. -/
def sendHandler (docsText : String) (history : List (String × String)) (question : String) :
    List (String × String) :=
  if question ≠ "" then
    let ctx := if docsText ≠ "" then find_relevant_chunks question docsText 5 40 else ""
    history ++ [(question, generate_gpt_style_answer question ctx)]
  else history

/-! ## Semantic path: user_input (src/prompt_ui.py, lines 80-111) -/

/-- Session state of src/prompt_ui.py. `V` is the opaque type of the
FAISS vector store; `qa_chain` records whether the conversational
chain has been built and cached. -/
structure SessState (V : Type) where
  vector_store : Option V
  qa_chain : Bool
  conversation : List (String × String)

/-- External collaborators of `user_input`, treated as opaque
functions per the spec: the persisted index on disk (if any), the
similarity search, and the generative-model call, which may fail with
a transport, quota or auth error. -/
structure UIEnv (V : Type) where
  diskIndex : Option V
  search : V → String → Nat → List String
  genCall : List String → String → Except String String

/-- Observable outcome of one `user_input` call. -/
inductive UIOutcome where
  | answered (a : String)
  | warned (msg : String)
  | genFailed (e : String)

/-- The part of `user_input` that runs once a vector store `v` is at
hand: retrieve the five most similar chunks, cache the QA chain, call
the generative model; on failure the exception propagates before the
conversation is touched, so no entry is appended. -/
def askWithStore {V : Type} (env : UIEnv V) (st : SessState V) (v : V) (q : String) :
    SessState V × UIOutcome :=
  let docs := env.search v q 5
  let st2 : SessState V := { st with qa_chain := true }
  match env.genCall docs q with
  | Except.error e => (st2, UIOutcome.genFailed e)
  | Except.ok a =>
    ({ st2 with conversation := st2.conversation ++ [(q, a)] }, UIOutcome.answered a)

/-- `user_input(user_question)` from src/prompt_ui.py: use the
session's vector store when present; otherwise try to load the
persisted index, and when none exists warn the user to upload and
process documents first and return without answering. -/
def user_input {V : Type} (env : UIEnv V) (st : SessState V) (q : String) :
    SessState V × UIOutcome :=
  match st.vector_store with
  | some v => askWithStore env st v q
  | none =>
    match env.diskIndex with
    | none => (st, UIOutcome.warned "Please upload PDFs and process them first!")
    | some v => askWithStore env { st with vector_store := some v } v q

/-! ## Lemmas: unfolding the normalizer -/

theorem rpnAux_nil (b : Bool) : rpnAux b [] = [] := by rw [rpnAux]

theorem isWordChar_of_digit (c : Char) (h : c.isDigit = true) : isWordChar c = true := by
  simp [isWordChar, h]

theorem rpnAux_nondigit (b : Bool) (c : Char) (cs : List Char) (h : c.isDigit = false) :
    rpnAux b (c :: cs) = c :: rpnAux (isWordChar c) cs := by
  rw [rpnAux]; simp [h]

theorem rpnAux_true_digit (c : Char) (cs : List Char) (h : c.isDigit = true) :
    rpnAux true (c :: cs) = c :: rpnAux true cs := by
  rw [rpnAux]; simp [h, isWordChar_of_digit c h]

theorem rpnAux_false_digit_pos (c : Char) (cs : List Char) (h : c.isDigit = true)
    (hm : (c :: List.takeWhile Char.isDigit cs).length ≤ 4)
    (hb : boundaryOk (List.dropWhile Char.isDigit cs) = true) :
    rpnAux false (c :: cs) = rpnAux true (List.dropWhile Char.isDigit cs) := by
  have hcond : (decide ((c :: List.takeWhile Char.isDigit cs).length ≤ 4) &&
      boundaryOk (List.dropWhile Char.isDigit cs)) = true := by
    rw [decide_eq_true hm, hb]; rfl
  rw [rpnAux]
  simp only [h, Bool.not_false, Bool.true_and, hcond]
  simp

theorem rpnAux_false_digit_neg (c : Char) (cs : List Char) (h : c.isDigit = true)
    (hf : ¬((c :: List.takeWhile Char.isDigit cs).length ≤ 4 ∧
      boundaryOk (List.dropWhile Char.isDigit cs) = true)) :
    rpnAux false (c :: cs) = c :: rpnAux true cs := by
  have hcond : (decide ((c :: List.takeWhile Char.isDigit cs).length ≤ 4) &&
      boundaryOk (List.dropWhile Char.isDigit cs)) = false := by
    rcases Bool.eq_false_or_eq_true (boundaryOk (List.dropWhile Char.isDigit cs)) with hb | hb
    · have hm : ¬ (c :: List.takeWhile Char.isDigit cs).length ≤ 4 := fun hm => hf ⟨hm, hb⟩
      rw [decide_eq_false hm, Bool.false_and]
    · rw [hb, Bool.and_false]
  rw [rpnAux]
  simp only [h, Bool.not_false, Bool.true_and, hcond]
  simp

/-! ## Lemmas: takeWhile and dropWhile bookkeeping -/

theorem takeWhile_all (p : Char → Bool) (l : List Char) (h : ∀ c ∈ l, p c = true) :
    List.takeWhile p l = l := by
  induction l with
  | nil => rfl
  | cons x xs ih =>
    rw [List.takeWhile_cons, if_pos (h x (by simp))]
    rw [ih fun c hc => h c (by simp [hc])]

theorem dropWhile_all (p : Char → Bool) (l : List Char) (h : ∀ c ∈ l, p c = true) :
    List.dropWhile p l = [] := by
  induction l with
  | nil => rfl
  | cons x xs ih =>
    rw [List.dropWhile_cons_of_pos (h x (by simp))]
    exact ih fun c hc => h c (by simp [hc])

theorem takeWhile_append_not (p : Char → Bool) (xs ys : List Char) (y : Char)
    (hy : p y = false) : List.takeWhile p (xs ++ y :: ys) = List.takeWhile p xs := by
  induction xs with
  | nil => simp [List.takeWhile_cons, hy]
  | cons x xs ih =>
    by_cases hx : p x
    · simp [List.takeWhile_cons, hx, ih]
    · simp [List.takeWhile_cons, hx]

theorem dropWhile_append_not (p : Char → Bool) (xs ys : List Char) (y : Char)
    (hy : p y = false) : List.dropWhile p (xs ++ y :: ys) = List.dropWhile p xs ++ y :: ys := by
  induction xs with
  | nil => simp [List.dropWhile_cons_of_neg, hy]
  | cons x xs ih =>
    by_cases hx : p x
    · simp only [List.cons_append, List.dropWhile_cons_of_pos hx]; exact ih
    · simp only [List.cons_append, List.dropWhile_cons_of_neg hx]

theorem dropWhile_head_false (p : Char → Bool) : ∀ (cs : List Char) (d : Char) (t : List Char),
    List.dropWhile p cs = d :: t → p d = false := by
  intro cs
  induction cs with
  | nil => intro d t h; simp [List.dropWhile] at h
  | cons x xs ih =>
    intro d t h
    by_cases hx : p x
    · rw [List.dropWhile_cons_of_pos hx] at h; exact ih d t h
    · rw [List.dropWhile_cons_of_neg hx] at h
      cases h; simpa using hx

theorem mem_takeWhile_digit (cs : List Char) :
    ∀ c ∈ List.takeWhile Char.isDigit cs, c.isDigit = true :=
  fun _ hc => List.mem_takeWhile_imp hc

/-! ## Lemmas: structure of the erased text -/

/-- Characters the regular expression cannot touch pass through: a
run of digits scanned with the word flag set is emitted unchanged. -/
theorem rpnAux_digits_pass (ds : List Char) (rest : List Char)
    (hd : ∀ c ∈ ds, c.isDigit = true) :
    rpnAux true (ds ++ rest) = ds ++ rpnAux true rest := by
  induction ds with
  | nil => rfl
  | cons c cs ih =>
    rw [List.cons_append, rpnAux_true_digit c _ (hd c (by simp))]
    rw [ih fun x hx => hd x (by simp [hx])]
    rfl

/-- A line made of digits only is erased entirely when it has at most
four characters and is kept whole otherwise. -/
theorem rpnAux_false_all_digits (l : List Char) (hne : l ≠ [])
    (hd : ∀ c ∈ l, c.isDigit = true) :
    rpnAux false l = if l.length ≤ 4 then [] else l := by
  cases l with
  | nil => exact absurd rfl hne
  | cons c cs =>
    have hc : c.isDigit = true := hd c (by simp)
    have hcs : ∀ x ∈ cs, x.isDigit = true := fun x hx => hd x (by simp [hx])
    have htw : List.takeWhile Char.isDigit cs = cs := takeWhile_all _ _ hcs
    have hdw : List.dropWhile Char.isDigit cs = [] := dropWhile_all _ _ hcs
    by_cases hlen : (c :: cs).length ≤ 4
    · rw [rpnAux_false_digit_pos c cs hc (by rw [htw]; exact hlen) (by rw [hdw]; rfl)]
      rw [hdw, rpnAux_nil, if_pos hlen]
    · rw [rpnAux_false_digit_neg c cs hc (by rw [htw]; exact fun hl => hlen hl.1)]
      have hpass : rpnAux true cs = cs := by
        have h0 := rpnAux_digits_pass cs [] hcs
        rw [List.append_nil, rpnAux_nil, List.append_nil] at h0
        exact h0
      rw [hpass, if_neg hlen]

/-- The erasure only removes digits: the non-digit characters of the
text survive unchanged, in order. -/
theorem rpnAux_filter_nondigit :
    ∀ (n : Nat) (l : List Char), l.length ≤ n → ∀ b : Bool,
    (rpnAux b l).filter (fun c => !c.isDigit) = l.filter (fun c => !c.isDigit) := by
  intro n
  induction n with
  | zero =>
    intro l hl b
    have : l = [] := by cases l with | nil => rfl | cons x xs => simp at hl
    subst this; rw [rpnAux_nil]
  | succ n ih =>
    intro l hl b
    cases l with
    | nil => rw [rpnAux_nil]
    | cons c cs =>
      have hcs : cs.length ≤ n := by simpa using hl
      by_cases hc : c.isDigit
      · by_cases hb : b
        · subst hb
          rw [rpnAux_true_digit c cs hc]
          simp only [List.filter_cons, hc, Bool.not_true]
          exact ih cs hcs true
        · have hb2 : b = false := by simpa using hb
          subst hb2
          by_cases hm : (c :: List.takeWhile Char.isDigit cs).length ≤ 4 ∧
              boundaryOk (List.dropWhile Char.isDigit cs) = true
          · rw [rpnAux_false_digit_pos c cs hc hm.1 hm.2]
            have hdwlen : (List.dropWhile Char.isDigit cs).length ≤ n :=
              le_trans (List.dropWhile_sublist _).length_le hcs
            rw [ih _ hdwlen true]
            have hsplit : List.takeWhile Char.isDigit cs ++ List.dropWhile Char.isDigit cs = cs :=
              List.takeWhile_append_dropWhile Char.isDigit cs
            have htwnil : (List.takeWhile Char.isDigit cs).filter (fun c => !c.isDigit) = [] := by
              refine List.filter_eq_nil_iff.mpr fun a ha => ?_
              have := List.mem_takeWhile_imp ha
              simp [this]
            calc (List.dropWhile Char.isDigit cs).filter (fun c => !c.isDigit)
                = (List.takeWhile Char.isDigit cs).filter (fun c => !c.isDigit) ++
                  (List.dropWhile Char.isDigit cs).filter (fun c => !c.isDigit) := by
                  rw [htwnil]; rfl
              _ = cs.filter (fun c => !c.isDigit) := by rw [← List.filter_append, hsplit]
              _ = (c :: cs).filter (fun c => !c.isDigit) := by
                  simp [List.filter_cons, hc]
          · rw [rpnAux_false_digit_neg c cs hc hm]
            simp only [List.filter_cons, hc, Bool.not_true]
            exact ih cs hcs true
      · have hcf : c.isDigit = false := by simpa using hc
        rw [rpnAux_nondigit b c cs hcf]
        simp only [List.filter_cons, hcf, Bool.not_false]
        rw [ih cs hcs (isWordChar c)]

/-- The output of the erasure is a sublist of its input. -/
theorem rpnAux_sublist :
    ∀ (n : Nat) (l : List Char), l.length ≤ n → ∀ b : Bool, (rpnAux b l).Sublist l := by
  intro n
  induction n with
  | zero =>
    intro l hl b
    have : l = [] := by cases l with | nil => rfl | cons x xs => simp at hl
    subst this; rw [rpnAux_nil]
  | succ n ih =>
    intro l hl b
    cases l with
    | nil => rw [rpnAux_nil]
    | cons c cs =>
      have hcs : cs.length ≤ n := by simpa using hl
      by_cases hc : c.isDigit
      · by_cases hb : b
        · subst hb
          rw [rpnAux_true_digit c cs hc]
          exact List.Sublist.cons₂ c (ih cs hcs true)
        · have hb2 : b = false := by simpa using hb
          subst hb2
          by_cases hm : (c :: List.takeWhile Char.isDigit cs).length ≤ 4 ∧
              boundaryOk (List.dropWhile Char.isDigit cs) = true
          · rw [rpnAux_false_digit_pos c cs hc hm.1 hm.2]
            have h1 : (rpnAux true (List.dropWhile Char.isDigit cs)).Sublist
                (List.dropWhile Char.isDigit cs) :=
              ih _ (le_trans (List.dropWhile_sublist _).length_le hcs) true
            exact (h1.trans (List.dropWhile_sublist _)).trans (List.sublist_cons_self c cs)
          · rw [rpnAux_false_digit_neg c cs hc hm]
            exact List.Sublist.cons₂ c (ih cs hcs true)
      · have hcf : c.isDigit = false := by simpa using hc
        rw [rpnAux_nondigit b c cs hcf]
        exact List.Sublist.cons₂ c (ih cs hcs (isWordChar c))

/-- The previous-character flag only matters when the current
character is a digit: on a text with a non-digit head it is
irrelevant. -/
theorem rpnAux_flag_irrel (b bb : Bool) (l : List Char)
    (h : ∀ c cs, l = c :: cs → c.isDigit = false) : rpnAux b l = rpnAux bb l := by
  cases l with
  | nil => rw [rpnAux_nil, rpnAux_nil]
  | cons c cs =>
    rw [rpnAux_nondigit b c cs (h c cs rfl), rpnAux_nondigit bb c cs (h c cs rfl)]

/-- The newline character is not a digit. -/
theorem nl_not_digit : Char.isDigit '\n' = false := by decide

/-- The newline character is not a word character. -/
theorem nl_not_word : isWordChar '\n' = false := by decide

/-- Erasure distributes over the first line break: a line break is a
word boundary on both sides and is never part of a match, so the text
before it and the text after it are processed independently, the
second with a cleared flag. -/
theorem rpnAux_append_nl :
    ∀ (n : Nat) (pre : List Char), pre.length ≤ n → '\n' ∉ pre → ∀ (b : Bool) (post : List Char),
    rpnAux b (pre ++ '\n' :: post) = rpnAux b pre ++ '\n' :: rpnAux false post := by
  intro n
  induction n with
  | zero =>
    intro pre hl _ b post
    have : pre = [] := by cases pre with | nil => rfl | cons x xs => simp at hl
    subst this
    rw [List.nil_append, rpnAux_nondigit b '\n' post nl_not_digit, nl_not_word, rpnAux_nil,
      List.nil_append]
  | succ n ih =>
    intro pre hl hnl b post
    cases pre with
    | nil =>
      rw [List.nil_append, rpnAux_nondigit b '\n' post nl_not_digit, nl_not_word, rpnAux_nil,
        List.nil_append]
    | cons c cs =>
      have hcs : cs.length ≤ n := by simpa using hl
      have hcnl : c ≠ '\n' := fun e => hnl (by simp [e])
      have hcsnl : '\n' ∉ cs := fun m => hnl (by simp [m])
      by_cases hc : c.isDigit
      · by_cases hb : b
        · subst hb
          rw [List.cons_append, rpnAux_true_digit c _ hc, rpnAux_true_digit c cs hc,
            ih cs hcs hcsnl true post]
          rfl
        · have hb2 : b = false := by simpa using hb
          subst hb2
          have htw : List.takeWhile Char.isDigit (cs ++ '\n' :: post) =
              List.takeWhile Char.isDigit cs :=
            takeWhile_append_not _ _ _ _ nl_not_digit
          have hdw : List.dropWhile Char.isDigit (cs ++ '\n' :: post) =
              List.dropWhile Char.isDigit cs ++ '\n' :: post :=
            dropWhile_append_not _ _ _ _ nl_not_digit
          have hbok : boundaryOk (List.dropWhile Char.isDigit cs ++ '\n' :: post) =
              boundaryOk (List.dropWhile Char.isDigit cs) := by
            cases hdwc : List.dropWhile Char.isDigit cs with
            | nil => simp [boundaryOk, nl_not_word]
            | cons d ds => simp [boundaryOk]
          by_cases hm : (c :: List.takeWhile Char.isDigit cs).length ≤ 4 ∧
              boundaryOk (List.dropWhile Char.isDigit cs) = true
          · rw [List.cons_append,
              rpnAux_false_digit_pos c (cs ++ '\n' :: post) hc (by rw [htw]; exact hm.1)
                (by rw [hdw, hbok]; exact hm.2),
              hdw,
              ih (List.dropWhile Char.isDigit cs)
                (le_trans (List.dropWhile_sublist _).length_le hcs)
                (fun m => hcsnl ((List.dropWhile_sublist _).subset m)) true post,
              rpnAux_false_digit_pos c cs hc hm.1 hm.2]
          · rw [List.cons_append,
              rpnAux_false_digit_neg c (cs ++ '\n' :: post) hc
                (by rw [htw, hdw, hbok]; exact hm),
              rpnAux_false_digit_neg c cs hc hm,
              ih cs hcs hcsnl true post]
            rfl
      · have hcf : c.isDigit = false := by simpa using hc
        rw [List.cons_append, rpnAux_nondigit b c _ hcf, rpnAux_nondigit b c cs hcf,
          ih cs hcs hcsnl (isWordChar c) post]
        rfl

/-! ## Lemmas: lines of a text -/

theorem splitOnNl_no_nl (l : List Char) (h : '\n' ∉ l) : splitOnNl l = [l] := by
  induction l with
  | nil => rfl
  | cons c cs ih =>
    have hc : c ≠ '\n' := fun e => h (by simp [e])
    have hcs : '\n' ∉ cs := fun m => h (by simp [m])
    rw [splitOnNl, if_neg hc, ih hcs]

theorem splitOnNl_append (pre post : List Char) (h : '\n' ∉ pre) :
    splitOnNl (pre ++ '\n' :: post) = pre :: splitOnNl post := by
  induction pre with
  | nil => rw [List.nil_append, splitOnNl, if_pos rfl]
  | cons c cs ih =>
    have hc : c ≠ '\n' := fun e => h (by simp [e])
    have hcs : '\n' ∉ cs := fun m => h (by simp [m])
    rw [List.cons_append, splitOnNl, if_neg hc, ih hcs]

/-- First-occurrence decomposition of a list at a member. -/
theorem mem_split_first (a : Char) (l : List Char) (h : a ∈ l) :
    ∃ s t, l = s ++ a :: t ∧ a ∉ s := by
  induction l with
  | nil => cases h
  | cons x xs ih =>
    by_cases hx : x = a
    · exact ⟨[], xs, by simp [hx], by simp⟩
    · have hm : a ∈ xs := by
        rcases List.mem_cons.mp h with h1 | h1
        · exact absurd h1.symm hx
        · exact h1
      rcases ih hm with ⟨s, t, he, hns⟩
      refine ⟨x :: s, t, by simp [he], ?_⟩
      intro hmem
      rcases List.mem_cons.mp hmem with h1 | h1
      · exact hx h1.symm
      · exact hns h1

/-- Erasure commutes with splitting into lines. -/
theorem splitOnNl_rpnAux :
    ∀ (n : Nat) (l : List Char), l.length ≤ n →
    splitOnNl (rpnAux false l) = (splitOnNl l).map (rpnAux false) := by
  intro n
  induction n with
  | zero =>
    intro l hl
    have : l = [] := by cases l with | nil => rfl | cons x xs => simp at hl
    subst this
    rw [rpnAux_nil]
    show ([[]] : List (List Char)) = List.map (rpnAux false) [[]]
    rw [List.map_cons, List.map_nil, rpnAux_nil]
  | succ n ih =>
    intro l hl
    by_cases h : '\n' ∈ l
    · rcases mem_split_first '\n' l h with ⟨pre, post, he, hpre⟩
      subst he
      have hplen : pre.length ≤ pre.length := le_refl _
      rw [rpnAux_append_nl pre.length pre hplen hpre false post]
      have hrpre : '\n' ∉ rpnAux false pre := fun m =>
        hpre ((rpnAux_sublist pre.length pre (le_refl _) false).subset m)
      rw [splitOnNl_append _ _ hrpre, splitOnNl_append pre post hpre]
      have hpost : post.length ≤ n := by
        have := List.length_append pre ('\n' :: post)
        simp only [List.length_cons] at this
        omega
      rw [ih post hpost]
      rfl
    · rw [splitOnNl_no_nl l h]
      have hout : '\n' ∉ rpnAux false l := fun m =>
        h ((rpnAux_sublist l.length l (le_refl _) false).subset m)
      rw [splitOnNl_no_nl _ hout]
      rfl

/-- A list of digits scanned with the word flag set passes through
unchanged. -/
theorem rpnAux_true_all_digits (l : List Char) (hd : ∀ c ∈ l, c.isDigit = true) :
    rpnAux true l = l := by
  have h0 := rpnAux_digits_pass l [] hd
  rw [List.append_nil, rpnAux_nil, List.append_nil] at h0
  exact h0

/-- The erasure is idempotent: a second pass finds nothing to erase.
A digit run kept by the first pass keeps its non-word context (only
digits are erased and the immediate neighbours of a maximal run are
not digits), so the second pass fails on it for the same reason. -/
theorem rpnAux_idem :
    ∀ (n : Nat) (l : List Char), l.length ≤ n → ∀ b : Bool,
    rpnAux b (rpnAux b l) = rpnAux b l := by
  intro n
  induction n with
  | zero =>
    intro l hl b
    have : l = [] := by cases l with | nil => rfl | cons x xs => simp at hl
    subst this
    rw [rpnAux_nil, rpnAux_nil]
  | succ n ih =>
    intro l hl b
    cases l with
    | nil => rw [rpnAux_nil, rpnAux_nil]
    | cons c cs =>
      have hcs : cs.length ≤ n := by simpa using hl
      by_cases hc : c.isDigit
      · by_cases hb : b
        · subst hb
          rw [rpnAux_true_digit c cs hc, rpnAux_true_digit c _ hc, ih cs hcs true]
        · have hb2 : b = false := by simpa using hb
          subst hb2
          by_cases hm : (c :: List.takeWhile Char.isDigit cs).length ≤ 4 ∧
              boundaryOk (List.dropWhile Char.isDigit cs) = true
          · rw [rpnAux_false_digit_pos c cs hc hm.1 hm.2]
            cases hdwc : List.dropWhile Char.isDigit cs with
            | nil => rw [rpnAux_nil, rpnAux_nil]
            | cons d t =>
              have hd : d.isDigit = false := dropWhile_head_false _ cs d t hdwc
              have htlen : t.length ≤ n := by
                have h1 : (List.dropWhile Char.isDigit cs).length ≤ cs.length :=
                  (List.dropWhile_sublist _).length_le
                rw [hdwc] at h1
                simp only [List.length_cons] at h1
                omega
              rw [rpnAux_nondigit true d t hd, rpnAux_nondigit false d _ hd,
                ih t htlen (isWordChar d)]
          · rw [rpnAux_false_digit_neg c cs hc hm]
            have htwd := mem_takeWhile_digit cs
            have hY : rpnAux true cs = List.takeWhile Char.isDigit cs ++
                rpnAux true (List.dropWhile Char.isDigit cs) := by
              conv_lhs => rw [← List.takeWhile_append_dropWhile Char.isDigit cs]
              exact rpnAux_digits_pass _ _ htwd
            cases hdwc : List.dropWhile Char.isDigit cs with
            | nil =>
              have hY2 : rpnAux true cs = List.takeWhile Char.isDigit cs := by
                rw [hY, hdwc, rpnAux_nil, List.append_nil]
              have htw_tw : List.takeWhile Char.isDigit (List.takeWhile Char.isDigit cs) =
                  List.takeWhile Char.isDigit cs := takeWhile_all _ _ htwd
              have hdw_tw : List.dropWhile Char.isDigit (List.takeWhile Char.isDigit cs) = [] :=
                dropWhile_all _ _ htwd
              have hm2 : ¬((c :: List.takeWhile Char.isDigit
                    (List.takeWhile Char.isDigit cs)).length ≤ 4 ∧
                  boundaryOk (List.dropWhile Char.isDigit
                    (List.takeWhile Char.isDigit cs)) = true) := by
                rw [htw_tw, hdw_tw]
                intro hcon
                exact hm ⟨hcon.1, by rw [hdwc]; rfl⟩
              rw [hY2, rpnAux_false_digit_neg c _ hc hm2,
                rpnAux_true_all_digits _ htwd]
            | cons d t =>
              have hd : d.isDigit = false := dropWhile_head_false _ cs d t hdwc
              rw [hdwc, rpnAux_nondigit true d t hd] at hY
              have htkY : List.takeWhile Char.isDigit (rpnAux true cs) =
                  List.takeWhile Char.isDigit cs := by
                rw [hY, takeWhile_append_not _ _ _ _ hd]
                exact takeWhile_all _ _ htwd
              have hdpY : List.dropWhile Char.isDigit (rpnAux true cs) =
                  d :: rpnAux (isWordChar d) t := by
                rw [hY, dropWhile_append_not _ _ _ _ hd, dropWhile_all _ _ htwd,
                  List.nil_append]
              have hm2 : ¬((c :: List.takeWhile Char.isDigit (rpnAux true cs)).length ≤ 4 ∧
                  boundaryOk (List.dropWhile Char.isDigit (rpnAux true cs)) = true) := by
                rw [htkY, hdpY]
                intro hcon
                apply hm
                refine ⟨hcon.1, ?_⟩
                rw [hdwc]
                simpa [boundaryOk] using hcon.2
              rw [rpnAux_false_digit_neg c _ hc hm2, ih cs hcs true]
      · have hcf : c.isDigit = false := by simpa using hc
        rw [rpnAux_nondigit b c cs hcf, rpnAux_nondigit b c _ hcf, ih cs hcs (isWordChar c)]

/-- A text without digits passes through the erasure unchanged. -/
theorem rpnAux_no_digits (l : List Char) (h : ∀ c ∈ l, c.isDigit = false) :
    ∀ b : Bool, rpnAux b l = l := by
  induction l with
  | nil => intro b; rw [rpnAux_nil]
  | cons c cs ih =>
    intro b
    rw [rpnAux_nondigit b c cs (h c (by simp)), ih fun x hx => h x (by simp [hx])]

/-- Evaluation helper: the five-digit line survives the erasure. -/
theorem rpn_12345 : remove_page_numbers "12345" = "12345" := by
  have h2 : rpnAux false "12345".data = "12345".data := by
    rw [rpnAux_false_all_digits _ (by decide) (by decide)]
    decide
  show (⟨rpnAux false "12345".data⟩ : String) = "12345"
  rw [h2]

/-! ## Claim theorems: C3 and C5 -/

/-- C3 (counterexample): the claim says normalization drops every
purely numeric line, but `remove_page_numbers "12345"` returns
`"12345"` unchanged — the regular expression `\b\d{1,4}\b` only
erases runs of at most four digits, so the output still contains a
purely numeric line. -/
theorem C3_counterexample :
    remove_page_numbers "12345" = "12345" ∧
    splitOnNl (remove_page_numbers "12345").data = ["12345".data] ∧
    "12345".data ≠ [] ∧ (∀ c ∈ "12345".data, c.isDigit = true) := by
  have h := rpn_12345
  exact ⟨h, by rw [h]; decide, by decide, by decide⟩

/-- C3 (amended): the normalizer erases isolated one- to four-digit
numbers in place rather than dropping lines; every line of its output
that consists solely of digits has length at least five, while purely
numeric lines of one to four digits are emptied (not removed) and
longer numeric lines pass through unchanged. -/
theorem C3_no_short_numeric_line (text : String) :
    ∀ l ∈ splitOnNl (remove_page_numbers text).data,
    l ≠ [] → (∀ c ∈ l, c.isDigit = true) → 5 ≤ l.length := by
  intro l hmem hne hdig
  have hdata : (remove_page_numbers text).data = rpnAux false text.data := rfl
  rw [hdata, splitOnNl_rpnAux text.data.length text.data (le_refl _)] at hmem
  rcases List.mem_map.mp hmem with ⟨l0, hl0mem, hl0⟩
  subst hl0
  have hfil : (rpnAux false l0).filter (fun c => !c.isDigit) =
      l0.filter (fun c => !c.isDigit) :=
    rpnAux_filter_nondigit l0.length l0 (le_refl _) false
  have hfil1 : (rpnAux false l0).filter (fun c => !c.isDigit) = [] := by
    refine List.filter_eq_nil_iff.mpr fun a ha => ?_
    simp [hdig a ha]
  have hl0dig : ∀ c ∈ l0, c.isDigit = true := by
    intro c hcmem
    by_contra hcd
    have hcf : c.isDigit = false := by simpa using hcd
    have hin : c ∈ l0.filter (fun c => !c.isDigit) :=
      List.mem_filter.mpr ⟨hcmem, by simp [hcf]⟩
    rw [← hfil, hfil1] at hin
    cases hin
  have hl0ne : l0 ≠ [] := by
    intro he
    subst he
    rw [rpnAux_nil] at hne
    exact hne rfl
  have heval := rpnAux_false_all_digits l0 hl0ne hl0dig
  by_cases hlen : l0.length ≤ 4
  · rw [heval, if_pos hlen] at hne
    exact absurd rfl hne
  · rw [heval, if_neg hlen]
    omega

/-- C3 (witness): the amended theorem applied to the five-digit
document text. -/
theorem C3_no_short_numeric_line_witness :
    "12345".data ∈ splitOnNl (remove_page_numbers "12345").data ∧
    "12345".data ≠ [] ∧ (∀ c ∈ "12345".data, c.isDigit = true) ∧
    5 ≤ "12345".data.length := by
  have h := rpn_12345
  have hmem : "12345".data ∈ splitOnNl (remove_page_numbers "12345").data := by
    rw [h]; decide
  exact ⟨hmem, by decide, by decide,
    C3_no_short_numeric_line "12345" "12345".data hmem (by decide) (by decide)⟩

/-- C5: the normalizer is idempotent — running
`remove_page_numbers` on its own output returns the output
unchanged. A kept digit run keeps its non-word neighbourhood (the
erasure removes only digits and the neighbours of a maximal run are
not digits), so the second pass erases nothing. -/
theorem C5_normalizer_idempotent (t : String) :
    remove_page_numbers (remove_page_numbers t) = remove_page_numbers t := by
  show (⟨rpnAux false (rpnAux false t.data)⟩ : String) = ⟨rpnAux false t.data⟩
  exact congrArg (fun l => (⟨l⟩ : String)) (rpnAux_idem t.data.length t.data (le_refl _) false)

/-! ## Lemmas: cross-multiplication arithmetic for ratio pairs -/

theorem cross_lt_of_lt_of_le (b1 b2 y1 y2 a1 a2 : Nat) (_hy2 : 0 < y2) (ha2 : 0 < a2)
    (h1 : b1 * y2 < y1 * b2) (h2 : y1 * a2 ≤ a1 * y2) : b1 * a2 < a1 * b2 := by
  have key : (b1 * a2) * y2 < (a1 * b2) * y2 := by
    calc (b1 * a2) * y2 = (b1 * y2) * a2 := by ring
      _ < (y1 * b2) * a2 := by exact mul_lt_mul_of_pos_right h1 ha2
      _ = (y1 * a2) * b2 := by ring
      _ ≤ (a1 * y2) * b2 := Nat.mul_le_mul_right b2 h2
      _ = (a1 * b2) * y2 := by ring
  exact lt_of_mul_lt_mul_right key (Nat.zero_le y2)

theorem cross_lt_of_eq_of_lt (b1 b2 y1 y2 a1 a2 : Nat) (_hy2 : 0 < y2) (hb2 : 0 < b2)
    (h1 : y1 * b2 = b1 * y2) (h2 : y1 * a2 < a1 * y2) : b1 * a2 < a1 * b2 := by
  have key : (b1 * a2) * y2 < (a1 * b2) * y2 := by
    calc (b1 * a2) * y2 = (b1 * y2) * a2 := by ring
      _ = (y1 * b2) * a2 := by rw [h1]
      _ = (y1 * a2) * b2 := by ring
      _ < (a1 * y2) * b2 := by exact mul_lt_mul_of_pos_right h2 hb2
      _ = (a1 * b2) * y2 := by ring
  exact lt_of_mul_lt_mul_right key (Nat.zero_le y2)

theorem cross_eq_trans (a1 a2 y1 y2 b1 b2 : Nat) (hy2 : 0 < y2)
    (h1 : a1 * y2 = y1 * a2) (h2 : y1 * b2 = b1 * y2) : a1 * b2 = b1 * a2 := by
  have key : (a1 * b2) * y2 = (b1 * a2) * y2 := by
    calc (a1 * b2) * y2 = (a1 * y2) * b2 := by ring
      _ = (y1 * a2) * b2 := by rw [h1]
      _ = (y1 * b2) * a2 := by ring
      _ = (b1 * y2) * a2 := by rw [h2]
      _ = (b1 * a2) * y2 := by ring
  exact Nat.eq_of_mul_eq_mul_right hy2 key

/-- Every similarity score has a positive denominator. -/
theorem similarity_den_pos (a b : String) : 0 < (similarity a b).2 := by
  simp only [similarity, ratioPair]
  split <;> dsimp only <;> omega

/-! ## Lemmas: the stable descending sort -/

theorem mem_insertScored (a x : (Nat × Nat) × Nat) :
    ∀ l : List ((Nat × Nat) × Nat), x ∈ insertScored a l ↔ x = a ∨ x ∈ l := by
  intro l
  induction l with
  | nil => simp [insertScored]
  | cons y ys ih =>
    by_cases hlt : scoreLt a.1 y.1
    · simp only [insertScored, if_pos hlt]
      rw [List.mem_cons, ih, List.mem_cons]
      tauto
    · simp only [insertScored, if_neg hlt]
      exact List.mem_cons

theorem sortScoredDesc_perm :
    ∀ l : List ((Nat × Nat) × Nat), (sortScoredDesc l).Perm l := by
  intro l
  induction l with
  | nil => simp [sortScoredDesc]
  | cons a rest ih =>
    have hins : ∀ S : List ((Nat × Nat) × Nat), (insertScored a S).Perm (a :: S) := by
      intro S
      induction S with
      | nil => simp [insertScored]
      | cons y ys ihS =>
        by_cases hlt : scoreLt a.1 y.1
        · simp only [insertScored, if_pos hlt]
          exact (ihS.cons y).trans (List.Perm.swap a y ys)
        · simp only [insertScored, if_neg hlt]
          exact List.Perm.refl _
    exact (hins (sortScoredDesc rest)).trans (ih.cons a)

theorem insertScored_sorted (a : (Nat × Nat) × Nat) :
    ∀ S : List ((Nat × Nat) × Nat), S.Pairwise rankRel →
    (∀ y ∈ S, a.2 < y.2) → (∀ y ∈ S, 0 < y.1.2) → 0 < a.1.2 →
    (insertScored a S).Pairwise rankRel := by
  intro S
  induction S with
  | nil => intro _ _ _ _; simp [insertScored]
  | cons y ys ih =>
    intro hS hidx hpos hapos
    rw [List.pairwise_cons] at hS
    obtain ⟨hy, hys⟩ := hS
    by_cases hlt : scoreLt a.1 y.1
    · simp only [insertScored, if_pos hlt]
      refine List.pairwise_cons.mpr ⟨?_, ?_⟩
      · intro b hb
        rcases (mem_insertScored a b ys).mp hb with hb1 | hb2
        · rw [hb1]; exact Or.inl hlt
        · exact hy b hb2
      · exact ih hys (fun z hz => hidx z (by simp [hz]))
          (fun z hz => hpos z (by simp [hz])) hapos
    · simp only [insertScored, if_neg hlt]
      refine List.pairwise_cons.mpr ⟨?_, List.pairwise_cons.mpr ⟨hy, hys⟩⟩
      intro b hb
      have hy2 : 0 < y.1.2 := hpos y (by simp)
      have hle : y.1.1 * a.1.2 ≤ a.1.1 * y.1.2 := Nat.le_of_not_lt hlt
      rcases List.mem_cons.mp hb with hb1 | hb2
      · rw [hb1]
        rcases Nat.lt_or_ge (y.1.1 * a.1.2) (a.1.1 * y.1.2) with hstrict | hge
        · exact Or.inl hstrict
        · have heq : a.1.1 * y.1.2 = y.1.1 * a.1.2 := Nat.le_antisymm hge hle
          exact Or.inr ⟨heq, hidx y (by simp)⟩
      · have hb2pos : 0 < b.1.2 := hpos b (by simp [hb2])
        rcases hy b hb2 with hlt2 | ⟨heq2, hidx2⟩
        · exact Or.inl (cross_lt_of_lt_of_le b.1.1 b.1.2 y.1.1 y.1.2 a.1.1 a.1.2
            hy2 hapos hlt2 hle)
        · rcases Nat.lt_or_ge (y.1.1 * a.1.2) (a.1.1 * y.1.2) with hstrict | hge
          · exact Or.inl (cross_lt_of_eq_of_lt b.1.1 b.1.2 y.1.1 y.1.2 a.1.1 a.1.2
              hy2 hb2pos heq2 hstrict)
          · have heq : a.1.1 * y.1.2 = y.1.1 * a.1.2 := Nat.le_antisymm hge hle
            refine Or.inr ⟨cross_eq_trans a.1.1 a.1.2 y.1.1 y.1.2 b.1.1 b.1.2 hy2 heq heq2,
              lt_trans (hidx y (by simp)) hidx2⟩

theorem sortScoredDesc_sorted :
    ∀ l : List ((Nat × Nat) × Nat), l.Pairwise (fun x y => x.2 < y.2) →
    (∀ x ∈ l, 0 < x.1.2) → (sortScoredDesc l).Pairwise rankRel := by
  intro l
  induction l with
  | nil => intro _ _; simp [sortScoredDesc]
  | cons a rest ih =>
    intro hpw hpos
    rw [List.pairwise_cons] at hpw
    obtain ⟨ha, hrest⟩ := hpw
    refine insertScored_sorted a (sortScoredDesc rest)
      (ih hrest fun x hx => hpos x (by simp [hx])) ?_ ?_ (hpos a (by simp))
    · intro y hy
      exact ha y ((sortScoredDesc_perm rest).mem_iff.mp hy)
    · intro y hy
      exact hpos y (by simp [(sortScoredDesc_perm rest).mem_iff.mp hy])

/-! ## Lemmas: the scoring loop -/

theorem scoredFrom_ge (q : String) :
    ∀ (ls : List String) (k : Nat), ∀ x ∈ scoredFrom q k ls, k ≤ x.2 := by
  intro ls
  induction ls with
  | nil => intro k x hx; cases hx
  | cons l ls ih =>
    intro k x hx
    rcases List.mem_cons.mp hx with h1 | h2
    · subst h1; exact le_refl _
    · exact le_trans (Nat.le_succ k) (ih (k + 1) x h2)

theorem scoredFrom_idx_pairwise (q : String) :
    ∀ (ls : List String) (k : Nat), (scoredFrom q k ls).Pairwise (fun x y => x.2 < y.2) := by
  intro ls
  induction ls with
  | nil => intro k; simp [scoredFrom]
  | cons l ls ih =>
    intro k
    refine List.pairwise_cons.mpr ⟨?_, ih (k + 1)⟩
    intro x hx
    exact lt_of_lt_of_le (Nat.lt_succ_self k) (scoredFrom_ge q ls (k + 1) x hx)

theorem scoredFrom_pos (q : String) :
    ∀ (ls : List String) (k : Nat), ∀ x ∈ scoredFrom q k ls, 0 < x.1.2 := by
  intro ls
  induction ls with
  | nil => intro k x hx; cases hx
  | cons l ls ih =>
    intro k x hx
    rcases List.mem_cons.mp hx with h1 | h2
    · subst h1; exact similarity_den_pos q l
    · exact ih (k + 1) x h2

/-! ## Lemmas: the selection loop -/

theorem selectAux_fst_sublist (lines : List String) (w : Nat) :
    ∀ (ps : List ((Nat × Nat) × Nat)) (used : List Nat),
    ((selectAux lines w ps used).map (fun x => x.1)).Sublist ps := by
  intro ps
  induction ps with
  | nil => intro used; simp [selectAux]
  | cons si rest ih =>
    intro used
    by_cases hu : si.2 ∈ used
    · simp only [selectAux, if_pos hu]
      exact (ih used).trans (List.sublist_cons_self si rest)
    · simp only [selectAux, if_neg hu, List.map_cons]
      exact List.Sublist.cons₂ si (ih (used ++ List.range' si.2 w))

theorem selectAux_not_used (lines : List String) (w : Nat) :
    ∀ (ps : List ((Nat × Nat) × Nat)) (used : List Nat),
    ∀ x ∈ selectAux lines w ps used, x.1.2 ∉ used := by
  intro ps
  induction ps with
  | nil => intro used x hx; cases hx
  | cons si rest ih =>
    intro used x hx
    by_cases hu : si.2 ∈ used
    · rw [selectAux, if_pos hu] at hx
      exact ih used x hx
    · rw [selectAux, if_neg hu] at hx
      rcases List.mem_cons.mp hx with h1 | h2
      · subst h1; exact hu
      · intro hmem
        exact ih (used ++ List.range' si.2 w) x h2 (List.mem_append.mpr (Or.inl hmem))

theorem selectAux_starts_pairwise (lines : List String) (w : Nat) :
    ∀ (ps : List ((Nat × Nat) × Nat)) (used : List Nat),
    ((selectAux lines w ps used).map (fun x => x.1.2)).Pairwise
      (fun i j => j < i ∨ i + w ≤ j) := by
  intro ps
  induction ps with
  | nil => intro used; simp [selectAux]
  | cons si rest ih =>
    intro used
    by_cases hu : si.2 ∈ used
    · rw [selectAux, if_pos hu]
      exact ih used
    · rw [selectAux, if_neg hu, List.map_cons]
      dsimp only
      refine List.pairwise_cons.mpr ⟨?_, ih (used ++ List.range' si.2 w)⟩
      intro j hj
      rcases List.mem_map.mp hj with ⟨x, hxmem, hxj⟩
      have hnot := selectAux_not_used lines w rest (used ++ List.range' si.2 w) x hxmem
      have hnr : x.1.2 ∉ List.range' si.2 w := fun hm =>
        hnot (List.mem_append.mpr (Or.inr hm))
      rw [List.mem_range'_1] at hnr
      subst hxj
      omega

/-! ## Claim theorems: C1 and C6 -/

/-- C1 (counterexample): the retriever can return two windows whose
index ranges overlap. Question "abab" over lines ["x", "ab", "abab"]
with window size 2 ranks the start indices [2, 1, 0]; index 1 is not
consumed by the first window [2, 4), so the window [1, 3) is emitted
and overlaps it (and [0, 2) then overlaps [1, 3)). -/
theorem C1_counterexample :
    selectedStarts "abab" "x\nab\nabab" 5 2 = [2, 1, 0] ∧
    ¬ (selectedStarts "abab" "x\nab\nabab" 5 2).Pairwise
      (fun i j => i + 2 ≤ j ∨ j + 2 ≤ i) := by
  exact ⟨by decide, by decide⟩

/-- C1 (amended): the selection loop skips every ranked line whose
start index was already consumed by an earlier window, so no emitted
window starts inside an earlier one and, for window size at least one,
all start indices are distinct (no duplicate line ranges); emitted
windows may still overlap an earlier window from the left. -/
theorem C1_no_restart_inside (question text : String) (mc w : Nat) (hw : 1 ≤ w) :
    (selectedStarts question text mc w).Pairwise (fun i j => j < i ∨ i + w ≤ j) ∧
    (selectedStarts question text mc w).Nodup := by
  have hpw := selectAux_starts_pairwise (textLines text) w
    ((rankedChunks question text).take mc) []
  exact ⟨hpw, hpw.imp fun h => by omega⟩

/-- C1 (witness): the amended theorem at the counterexample input. -/
theorem C1_no_restart_inside_witness :
    1 ≤ 2 ∧
    ((selectedStarts "abab" "x\nab\nabab" 5 2).Pairwise (fun i j => j < i ∨ i + 2 ≤ j) ∧
      (selectedStarts "abab" "x\nab\nabab" 5 2).Nodup) :=
  ⟨by decide, C1_no_restart_inside "abab" "x\nab\nabab" 5 2 (by decide)⟩

/-- C6: the ranked candidate list is a permutation of the scored
enumeration of all lines, sorted by strictly descending score with
ties broken by ascending original index (the stable sort); the
selection only walks the first `max_chunks` ranked candidates (its
emitted pairs form a sublist of that prefix), so the windows come out
in score-descending order, not document order, and at most
`max_chunks` windows are emitted. -/
theorem C6_ranking (question text : String) (mc w : Nat) :
    (rankedChunks question text).Perm (scoredFrom question 0 (textLines text)) ∧
    (rankedChunks question text).Pairwise rankRel ∧
    ((selectedPairs question text mc w).map (fun x => x.1)).Sublist
      ((rankedChunks question text).take mc) ∧
    ((selectedPairs question text mc w).map (fun x => x.1)).Pairwise rankRel ∧
    (selectedPairs question text mc w).length ≤ mc := by
  have hperm := sortScoredDesc_perm (scoredFrom question 0 (textLines text))
  have hsorted := sortScoredDesc_sorted (scoredFrom question 0 (textLines text))
    (scoredFrom_idx_pairwise question (textLines text) 0)
    (scoredFrom_pos question (textLines text) 0)
  have hsub := selectAux_fst_sublist (textLines text) w
    ((rankedChunks question text).take mc) []
  have htake : ((rankedChunks question text).take mc).Pairwise rankRel :=
    hsorted.sublist (List.take_sublist mc _)
  refine ⟨hperm, hsorted, hsub, htake.sublist hsub, ?_⟩
  have h1 : ((selectedPairs question text mc w).map (fun x => x.1)).length ≤
      ((rankedChunks question text).take mc).length := hsub.length_le
  rw [List.length_map] at h1
  exact le_trans h1 (List.length_take_le mc _)

/-! ## Claim theorems: C9 (empty document text) -/

/-- On empty document text the retriever scores the single empty line
and emits one window of empty lines, so the returned context is the
empty string, whatever the parameters. -/
theorem find_relevant_chunks_empty (q : String) (mc w : Nat) :
    find_relevant_chunks q "" mc w = "" := by
  have h0 : rankedChunks q "" = [(similarity q "", 0)] := rfl
  cases mc with
  | zero =>
    show String.intercalate "\n\n"
      ((selectAux (textLines "") w ((rankedChunks q "").take 0) []).map (fun p => p.2)) = ""
    rw [h0]
    rfl
  | succ m =>
    show String.intercalate "\n\n"
      ((selectAux (textLines "") w ((rankedChunks q "").take (m + 1)) []).map (fun p => p.2)) = ""
    rw [h0, List.take_succ_cons, List.take_nil]
    have hu : (similarity q "", 0).2 ∉ ([] : List Nat) := by simp
    rw [selectAux, if_neg hu]
    show String.intercalate "\n\n"
      [String.intercalate "\n" (((textLines "").drop 0).take w)] = ""
    cases w with
    | zero => rfl
    | succ w2 =>
      have ht : textLines "" = [""] := rfl
      rw [ht, List.drop_zero, List.take_succ_cons, List.take_nil]
      rfl

/-! ## Lemmas: the answer synthesizer -/

theorem remove_page_numbers_empty : remove_page_numbers "" = "" := by
  show (⟨rpnAux false []⟩ : String) = ""
  rw [rpnAux_nil]

/-- The empty context yields no sentences, hence no relevant
sentences. -/
theorem relevantSentences_empty_ctx (q : String) : relevantSentences q "" = [] := by
  unfold relevantSentences
  rw [remove_page_numbers_empty]
  simp [pyStrip]

theorem answerPoints_len_le (q ctx : String) : (answerPoints q ctx).length ≤ 6 := by
  simp only [answerPoints]
  split
  · exact List.length_take_le 6 _
  · exact List.length_take_le 6 _

theorem answerPoints_pos (q ctx : String) : 1 ≤ (answerPoints q ctx).length := by
  simp only [answerPoints]
  split
  · rename_i h
    cases hr : relevantSentences q ctx with
    | nil => exact absurd hr h
    | cons a t => rw [List.take_succ_cons]; simp
  · simp [fallback_points]

theorem answerPoints_eq (q ctx : String) :
    answerPoints q ctx =
      (if relevantSentences q ctx ≠ [] then (relevantSentences q ctx).take 6
        else fallback_points) := by
  unfold answerPoints
  split
  · rw [if_pos (by assumption)]
  · rw [if_neg (by assumption)]
    rfl

/-- With no relevant sentence, the points are exactly the fallback
list. -/
theorem answerPoints_of_no_relevant (q ctx : String) (h : relevantSentences q ctx = []) :
    answerPoints q ctx = fallback_points := by
  unfold answerPoints
  simp only [h]
  rfl

theorem dropWhile_ne_nil_of_mem (p : Char → Bool) :
    ∀ (l : List Char) (c : Char), c ∈ l → p c = false → l.dropWhile p ≠ [] := by
  intro l
  induction l with
  | nil => intro c hc; cases hc
  | cons x xs ih =>
    intro c hc hpc
    by_cases hx : p x
    · rw [List.dropWhile_cons_of_pos hx]
      rcases List.mem_cons.mp hc with h1 | h2
      · rw [h1] at hpc
        rw [hpc] at hx
        cases hx
      · exact ih c h2 hpc
    · rw [List.dropWhile_cons_of_neg hx]
      simp

theorem mem_dropWhile_of_not (p : Char → Bool) :
    ∀ (l : List Char) (c : Char), c ∈ l → p c = false → c ∈ l.dropWhile p := by
  intro l
  induction l with
  | nil => intro c hc; cases hc
  | cons x xs ih =>
    intro c hc hpc
    by_cases hx : p x
    · rw [List.dropWhile_cons_of_pos hx]
      rcases List.mem_cons.mp hc with h1 | h2
      · rw [h1] at hpc
        rw [hpc] at hx
        cases hx
      · exact ih c h2 hpc
    · rw [List.dropWhile_cons_of_neg hx]
      exact hc

/-- Stripping keeps a list containing a non-whitespace character
non-empty. -/
theorem pyStrip_ne_nil (l : List Char) (c : Char) (hc : c ∈ l)
    (hw : c.isWhitespace = false) : pyStrip l ≠ [] := by
  unfold pyStrip
  intro h
  rw [List.reverse_eq_nil_iff] at h
  have h1 : c ∈ List.dropWhile Char.isWhitespace l := mem_dropWhile_of_not _ l c hc hw
  have h2 : c ∈ (List.dropWhile Char.isWhitespace l).reverse := List.mem_reverse.mpr h1
  exact dropWhile_ne_nil_of_mem Char.isWhitespace _ c h2 hw h

/-- The formatted answer of a non-empty point list contains an
asterisk, so stripping leaves it non-empty and the answer string is
never empty. -/
theorem generate_ne_empty (q ctx : String) : generate_gpt_style_answer q ctx ≠ "" := by
  unfold generate_gpt_style_answer
  cases hp : answerPoints q ctx with
  | nil =>
    have hlen := answerPoints_pos q ctx
    rw [hp] at hlen
    simp at hlen
  | cons p ps =>
    have hstar1 : '*' ∈ "**Point ".data := by decide
    have hstar2 : '*' ∈ pointChars 1 p := by
      unfold pointChars
      exact List.mem_append.mpr (Or.inl (List.mem_append.mpr (Or.inl
        (List.mem_append.mpr (Or.inl (List.mem_append.mpr (Or.inl hstar1)))))))
    have hstar : '*' ∈ formatAnswerChars 1 (p :: ps) := by
      show '*' ∈ pointChars 1 p ++ formatAnswerChars (1 + 1) ps
      exact List.mem_append.mpr (Or.inl hstar2)
    have hne := pyStrip_ne_nil _ '*' hstar (by decide)
    intro he
    have h2 : pyStrip (formatAnswerChars 1 (p :: ps)) = ([] : List Char) :=
      congrArg String.data he
    exact hne h2

/-! ## Claim theorems: C2, C4, C9, C10 -/

/-- C2 (counterexample): the claim says the synthesized answer never
contains the question verbatim as a full point, but when the context
contains the question text as a sentence, that sentence is relevant
(it contains the question's own keywords) and becomes a point — here
the full answer point list is exactly the question string. -/
theorem C2_counterexample :
    answerPoints "What is machine learning?" "What is machine learning?" =
      ["What is machine learning?"] ∧
    "What is machine learning?" ∈
      answerPoints "What is machine learning?" "What is machine learning?" := by
  have hq : remove_page_numbers "What is machine learning?" = "What is machine learning?" := by
    show (⟨rpnAux false "What is machine learning?".data⟩ : String) = "What is machine learning?"
    rw [rpnAux_no_digits _ (by decide) false]
  have h : answerPoints "What is machine learning?" "What is machine learning?" =
      ["What is machine learning?"] := by
    unfold answerPoints relevantSentences
    rw [hq]
    decide
  exact ⟨h, by rw [h]; exact List.mem_cons_self _ _⟩

/-- C2 (amended): the synthesized answer contains at most six points;
it may, however, echo the question verbatim as a point when the
retrieved context contains the question text as a relevant
sentence. -/
theorem C2_at_most_six_points (q ctx : String) : (answerPoints q ctx).length ≤ 6 :=
  answerPoints_len_le q ctx

/-- C4: when zero relevant sentences are found — in particular on the
empty context produced for an empty line sequence — the synthesizer
substitutes the fixed fallback list and produces exactly six points. -/
theorem C4_fallback (q ctx : String) (h : relevantSentences q ctx = []) :
    answerPoints q ctx = fallback_points ∧ (answerPoints q ctx).length = 6 ∧
    relevantSentences q "" = [] := by
  have h1 := answerPoints_of_no_relevant q ctx h
  exact ⟨h1, by rw [h1]; rfl, relevantSentences_empty_ctx q⟩

/-- C4 (witness): the theorem applied to the question "What" with the
empty context. -/
theorem C4_fallback_witness :
    relevantSentences "What" "" = [] ∧
    (answerPoints "What" "" = fallback_points ∧ (answerPoints "What" "").length = 6 ∧
      relevantSentences "What" "" = []) :=
  ⟨relevantSentences_empty_ctx "What",
    C4_fallback "What" "" (relevantSentences_empty_ctx "What")⟩

/-- C9: on the empty document text the retriever returns the empty
string for every parameter choice, and the Send handler treats the
empty text as "no usable document" rather than an error: it
short-circuits to the empty context, synthesizes the six-point
fallback answer (a non-empty answer, not a failure) and appends the
turn to the history. -/
theorem C9_empty_no_error (q : String) (hist : List (String × String)) (mc w : Nat) :
    find_relevant_chunks q "" mc w = "" ∧
    sendHandler "" hist q =
      (if q ≠ "" then hist ++ [(q, generate_gpt_style_answer q "")] else hist) ∧
    (answerPoints q "").length = 6 ∧ generate_gpt_style_answer q "" ≠ "" := by
  refine ⟨find_relevant_chunks_empty q mc w, ?_, ?_, generate_ne_empty q ""⟩
  · by_cases hq : q = ""
    · subst hq; simp [sendHandler]
    · simp [sendHandler, hq]
  · rw [answerPoints_of_no_relevant q "" (relevantSentences_empty_ctx q)]
    rfl

/-- C10: the synthesized answer always carries between one and six
points — the first six relevant sentences when any exist, the six
fallback points otherwise — so the answer string is never empty. -/
theorem C10_answer_nonempty (q ctx : String) :
    1 ≤ (answerPoints q ctx).length ∧ (answerPoints q ctx).length ≤ 6 ∧
    answerPoints q ctx =
      (if relevantSentences q ctx ≠ [] then (relevantSentences q ctx).take 6
        else fallback_points) ∧
    generate_gpt_style_answer q ctx ≠ "" :=
  ⟨answerPoints_pos q ctx, answerPoints_len_le q ctx, answerPoints_eq q ctx,
    generate_ne_empty q ctx⟩

/-! ## Claim theorems: C7 and C8 -/

/-- C7: when the generative-model call fails, the conversation is not
touched — the append happens only after a successful call — and the
question is never recorded with a fabricated answer; the handler
returns a failure outcome instead of crashing. -/
theorem C7_failed_call_preserves_transcript {V : Type} (env : UIEnv V) (st : SessState V)
    (q e : String) (hgen : ∀ docs, env.genCall docs q = Except.error e) :
    (user_input env st q).1.conversation = st.conversation ∧
    (∀ a, (user_input env st q).2 ≠ UIOutcome.answered a) := by
  unfold user_input askWithStore
  cases hvs : st.vector_store with
  | some v =>
    dsimp only
    rw [hgen (env.search v q 5)]
    exact ⟨rfl, fun a h => UIOutcome.noConfusion h⟩
  | none =>
    cases hdi : env.diskIndex with
    | none => exact ⟨rfl, fun a h => UIOutcome.noConfusion h⟩
    | some v =>
      dsimp only
      rw [hgen (env.search v q 5)]
      exact ⟨rfl, fun a h => UIOutcome.noConfusion h⟩

/-- C7 (witness): a failing environment with a cached store leaves the
conversation unchanged. -/
theorem C7_failed_call_preserves_transcript_witness :
    (∀ docs, (@UIEnv.mk Unit (some ()) (fun _ _ _ => []) (fun _ _ => Except.error "quota")).genCall
        docs "Hi" = Except.error "quota") ∧
    ((@user_input Unit (@UIEnv.mk Unit (some ()) (fun _ _ _ => []) (fun _ _ => Except.error "quota"))
        (@SessState.mk Unit none false [("a", "b")]) "Hi").1.conversation = [("a", "b")] ∧
      (∀ a, (@user_input Unit
          (@UIEnv.mk Unit (some ()) (fun _ _ _ => []) (fun _ _ => Except.error "quota"))
          (@SessState.mk Unit none false [("a", "b")]) "Hi").2 ≠ UIOutcome.answered a)) :=
  ⟨fun _ => rfl,
    C7_failed_call_preserves_transcript
      (@UIEnv.mk Unit (some ()) (fun _ _ _ => []) (fun _ _ => Except.error "quota"))
      (@SessState.mk Unit none false [("a", "b")]) "Hi" "quota" (fun _ => rfl)⟩

/-- C8: a question against a semantic index that was never built and
is not persisted on disk returns the session state unchanged together
with the actionable warning telling the user to submit documents
first — no answer is produced, no conversation entry is added and
nothing crashes. -/
theorem C8_index_missing_warns {V : Type} (env : UIEnv V) (st : SessState V) (q : String)
    (h1 : st.vector_store = none) (h2 : env.diskIndex = none) :
    user_input env st q = (st, UIOutcome.warned "Please upload PDFs and process them first!") := by
  unfold user_input
  rw [h1, h2]

/-- C8 (witness): the theorem at a concrete store-less session. -/
theorem C8_index_missing_warns_witness :
    (@SessState.mk Unit none false [("a", "b")]).vector_store = none ∧
    (@UIEnv.mk Unit none (fun _ _ _ => []) (fun _ _ => Except.ok "yes")).diskIndex = none ∧
    @user_input Unit (@UIEnv.mk Unit none (fun _ _ _ => []) (fun _ _ => Except.ok "yes"))
        (@SessState.mk Unit none false [("a", "b")]) "Hi" =
      (@SessState.mk Unit none false [("a", "b")],
        UIOutcome.warned "Please upload PDFs and process them first!") :=
  ⟨rfl, rfl,
    C8_index_missing_warns (@UIEnv.mk Unit none (fun _ _ _ => []) (fun _ _ => Except.ok "yes"))
      (@SessState.mk Unit none false [("a", "b")]) "Hi" rfl rfl⟩

end PdfSearch
